import Mathlib

/-!
Verification of the TileMapBase tile-caching subsystem.

This file contains a shallow embedding, in Lean 4, of the caching core of
the TileMapBase repository:

* `tilemapbase/utils.py` — the LRU-evicting bounded `Cache` (a
  `collections.UserDict` subclass), the `ImageCache` subclass which
  bzip2-compresses Pillow images, and the `PerThreadProvider`;
* `tilemapbase/cache.py` — the fetch-orchestration `Cache.fetch` business
  logic and the `database_exists` probe;
* `tilemapbase/tiles.py` — the `Cache.make_request_string` and
  `Cache.split_request_string` key helpers.

Python dictionaries are modelled as insertion-ordered association lists,
Python strings as lists of character codes, machine integers as `Int`/`Nat`,
and exceptions as explicit failure flags or `Option` results.  Each
definition mirrors the control flow of the corresponding Python function.
-/

namespace TileMapBase

/-! ### Insertion-ordered dictionary model

A Python `dict` preserves insertion order; assigning to an existing key
updates the value in place, assigning to a fresh key appends, and `del`
removes the (unique) entry for the key.  We model a dict as an association
list with those exact operations. -/

variable {K V : Type} [DecidableEq K]

/-- Lookup: `d[k]`, returning `none` where Python would raise `KeyError`. -/
def dget? : List (K × V) → K → Option V
  | [], _ => none
  | (k1, v1) :: rest, k => if k = k1 then some v1 else dget? rest k

/-- Assignment `d[k] = v`: update in place if present, else append. -/
def dset : List (K × V) → K → V → List (K × V)
  | [], k, v => [(k, v)]
  | (k1, v1) :: rest, k, v =>
      if k = k1 then (k, v) :: rest else (k1, v1) :: dset rest k v

/-- Deletion `del d[k]`: removes the first (hence, with unique keys, the
only) entry for `k`; leaves the list unchanged when `k` is absent. -/
def ddel : List (K × V) → K → List (K × V)
  | [], _ => []
  | (k1, v1) :: rest, k => if k = k1 then rest else (k1, v1) :: ddel rest k

theorem dget?_dset_self (l : List (K × V)) (k : K) (v : V) :
    dget? (dset l k v) k = some v := by
  induction l with
  | nil => simp [dset, dget?]
  | cons p rest ih =>
      obtain ⟨k1, v1⟩ := p
      by_cases h : k = k1 <;> simp [dset, dget?, h, ih]

theorem dget?_dset_ne (l : List (K × V)) (k k1 : K) (v : V) (h : k1 ≠ k) :
    dget? (dset l k v) k1 = dget? l k1 := by
  induction l with
  | nil => simp [dset, dget?, h]
  | cons p rest ih =>
      obtain ⟨k2, v2⟩ := p
      by_cases h2 : k = k2
      · subst h2
        simp [dset, dget?, h]
      · by_cases h3 : k1 = k2 <;> simp [dset, dget?, h2, h3, ih]

theorem dget?_ddel_ne (l : List (K × V)) (k k1 : K) (h : k1 ≠ k) :
    dget? (ddel l k) k1 = dget? l k1 := by
  induction l with
  | nil => simp [ddel]
  | cons p rest ih =>
      obtain ⟨k2, v2⟩ := p
      by_cases h2 : k = k2
      · subst h2
        simp [ddel, dget?, h]
      · by_cases h3 : k1 = k2 <;> simp [ddel, dget?, h2, h3, ih]

theorem mem_of_dget?_eq_some {l : List (K × V)} {k : K} {v : V}
    (h : dget? l k = some v) : (k, v) ∈ l := by
  induction l with
  | nil => simp [dget?] at h
  | cons p rest ih =>
      obtain ⟨k1, v1⟩ := p
      by_cases h1 : k = k1
      · subst h1
        simp [dget?] at h
        simp [h]
      · simp [dget?, h1] at h
        exact List.mem_cons_of_mem _ (ih h)

theorem mem_dset (l : List (K × V)) (k : K) (v : V) {p : K × V}
    (h : p ∈ dset l k v) : p = (k, v) ∨ p ∈ l := by
  induction l with
  | nil => simp [dset] at h; simp [h]
  | cons q rest ih =>
      obtain ⟨k1, v1⟩ := q
      by_cases h1 : k = k1
      · subst h1
        simp [dset] at h
        rcases h with h | h
        · exact Or.inl h
        · exact Or.inr (List.mem_cons_of_mem _ h)
      · simp [dset, h1] at h
        rcases h with h | h
        · exact Or.inr (by simp [h])
        · rcases ih h with h2 | h2
          · exact Or.inl h2
          · exact Or.inr (List.mem_cons_of_mem _ h2)

theorem mem_dset_of_mem_of_ne (l : List (K × V)) (k : K) (v : V) {p : K × V}
    (hp : p ∈ l) (hne : p.1 ≠ k) : p ∈ dset l k v := by
  induction l with
  | nil => simp at hp
  | cons q rest ih =>
      obtain ⟨k1, v1⟩ := q
      rcases List.mem_cons.1 hp with h | h
      · by_cases h1 : k = k1
        · subst h1
          exact absurd (by rw [h]) hne
        · simp [dset, h1, h]
      · by_cases h1 : k = k1
        · simp [dset, h1]
          exact Or.inr h
        · simp [dset, h1]
          exact Or.inr (ih h)

theorem ddel_sublist (l : List (K × V)) (k : K) : (ddel l k).Sublist l := by
  induction l with
  | nil => simp [ddel]
  | cons p rest ih =>
      obtain ⟨k1, v1⟩ := p
      by_cases h : k = k1
      · simp [ddel, h]
      · simpa [ddel, h] using ih.cons₂ (k1, v1)

theorem length_dset_present (l : List (K × V)) (k : K) (v : V)
    (h : (dget? l k).isSome) : (dset l k v).length = l.length := by
  induction l with
  | nil => simp [dget?] at h
  | cons p rest ih =>
      obtain ⟨k1, v1⟩ := p
      by_cases h1 : k = k1
      · simp [dset, h1]
      · simp [dget?, h1] at h
        simp [dset, h1, ih h]

theorem length_dset_absent (l : List (K × V)) (k : K) (v : V)
    (h : dget? l k = none) : (dset l k v).length = l.length + 1 := by
  induction l with
  | nil => simp [dset]
  | cons p rest ih =>
      obtain ⟨k1, v1⟩ := p
      by_cases h1 : k = k1
      · simp [dget?, h1] at h
      · simp [dget?, h1] at h
        simp [dset, h1, ih h]

theorem length_ddel_present (l : List (K × V)) (k : K)
    (h : (dget? l k).isSome) : (ddel l k).length + 1 = l.length := by
  induction l with
  | nil => simp [dget?] at h
  | cons p rest ih =>
      obtain ⟨k1, v1⟩ := p
      by_cases h1 : k = k1
      · simp [ddel, h1]
      · simp [dget?, h1] at h
        simp [ddel, h1]
        exact ih h

/-! ### The bounded LRU cache (`tilemapbase/utils.py`, class `Cache`)

The Python class keeps `self.data` (from `UserDict`), `self._accesses`
(key → last-access sequence number), `self._access_count` and
`self._maxcount`.  `maxcount` is a Python `int`, so we model it as `Int`
(negative values are representable, as in the source).  Exceptions raised
by an operation are modelled by a `Bool` success flag; the state returned
alongside a `false` flag is the state at the moment the exception is
raised, since the Python object is mutated in place. -/

structure LRU (K V : Type) where
  maxcount : Int
  access_count : Nat
  accesses : List (K × Nat)
  data : List (K × V)
deriving DecidableEq

/-- The constructor `Cache.__init__` (it performs no validation). -/
def mkCache (maxcount : Int) : LRU K V :=
  { maxcount := maxcount, access_count := 0, accesses := [], data := [] }

/-- The scanning loop of `Cache._evict`: `toremove` starts at `-1`,
`removekey` starts unbound (`none`); for each `(key, value)` pair of
`_accesses`, if `toremove == -1 or toremove > value` both are updated. -/
def evictScan : List (K × Nat) → Int → Option K → Int × Option K
  | [], toremove, removekey => (toremove, removekey)
  | (key, value) :: rest, toremove, removekey =>
      if toremove = -1 ∨ toremove > (value : Int) then
        evictScan rest (value : Int) (some key)
      else
        evictScan rest toremove removekey

/-- `Cache.__delitem__`: `del self.data[key]` (raises `KeyError` if absent,
leaving the state untouched) then `del self._accesses[key]` (raises if
absent, with `data` already mutated). -/
def delItem (c : LRU K V) (k : K) : LRU K V × Bool :=
  if (dget? c.data k).isSome then
    if (dget? c.accesses k).isSome then
      ({ c with data := ddel c.data k, accesses := ddel c.accesses k }, true)
    else
      ({ c with data := ddel c.data k }, false)
  else
    (c, false)

/-- `Cache._evict`: scan `_accesses` for the smallest value, then delete
that key.  If `_accesses` is empty, `removekey` is never assigned and
Python raises `UnboundLocalError` (flag `false`). -/
def evict (c : LRU K V) : LRU K V × Bool :=
  match (evictScan c.accesses (-1) none).2 with
  | none => (c, false)
  | some k => delItem c k

/-- `Cache.__setitem__`: evict first when the cache holds exactly
`maxcount` entries and the key is new, then record the access and store
the value.  An exception raised inside `_evict` propagates, so the
access/store lines do not run in that case. -/
def setItem (c : LRU K V) (k : K) (v : V) : LRU K V × Bool :=
  let ev :=
    if (c.data.length : Int) = c.maxcount ∧ (dget? c.data k).isNone then
      evict c
    else
      (c, true)
  if ev.2 then
    ({ ev.1 with
        accesses := dset ev.1.accesses k ev.1.access_count,
        access_count := ev.1.access_count + 1,
        data := dset ev.1.data k v }, true)
  else
    (ev.1, false)

/-- `Cache.__getitem__`: the access is recorded and the counter bumped
before `self.data[key]` is read, so an absent key still mutates the
bookkeeping; the `Option` result is `none` where Python raises
`KeyError`. -/
def getItem (c : LRU K V) (k : K) : LRU K V × Option V :=
  let c1 := { c with
      accesses := dset c.accesses k c.access_count,
      access_count := c.access_count + 1 }
  (c1, dget? c1.data k)

/-- One operation against the dictionary interface of `Cache`. -/
inductive Op (K V : Type) where
  | set (k : K) (v : V)
  | get (k : K)
  | del (k : K)
deriving DecidableEq

/-- Execute one operation; the flag is `false` when the operation raises. -/
def step (c : LRU K V) : Op K V → LRU K V × Bool
  | .set k v => setItem c k v
  | .get k =>
      let r := getItem c k
      (r.1, r.2.isSome)
  | .del k => delItem c k

/-- A trace of operations, each annotated as applying to the state reached
so far; `ValidFrom c ops c1` holds when every `get`/`del` in `ops` targets
a key present at that moment (so no operation raises) and the trace ends
in state `c1`. -/
inductive ValidFrom : LRU K V → List (Op K V) → LRU K V → Prop where
  | nil (c : LRU K V) : ValidFrom c [] c
  | set (c : LRU K V) {ops c1} (k : K) (v : V)
      (h : ValidFrom (step c (.set k v)).1 ops c1) :
      ValidFrom c (.set k v :: ops) c1
  | get (c : LRU K V) {ops c1} (k : K) (hk : (dget? c.data k).isSome)
      (h : ValidFrom (step c (.get k)).1 ops c1) :
      ValidFrom c (.get k :: ops) c1
  | del (c : LRU K V) {ops c1} (k : K) (hk : (dget? c.data k).isSome)
      (h : ValidFrom (step c (.del k)).1 ops c1) :
      ValidFrom c (.del k :: ops) c1

example :
    let c0 : LRU Nat Nat := mkCache 2
    let c1 := (step c0 (.set 5 10)).1
    let c2 := (step c1 (.set 6 11)).1
    let c3 := (step c2 (.set 7 12)).1
    c3.data = [(6, 11), (7, 12)] ∧ c3.accesses = [(6, 1), (7, 2)] := by
  decide

/-! ### Invariant of a well-used LRU cache -/

theorem dget?_isSome_iff (l : List (K × V)) (k : K) :
    (dget? l k).isSome ↔ k ∈ l.map Prod.fst := by
  induction l with
  | nil => simp [dget?]
  | cons p rest ih =>
      obtain ⟨k1, v1⟩ := p
      by_cases h : k = k1 <;> simp [dget?, h, ih]

theorem dget?_eq_none_of_not_mem {l : List (K × V)} {k : K}
    (h : k ∉ l.map Prod.fst) : dget? l k = none := by
  rcases h1 : dget? l k with _ | v
  · rfl
  · exact absurd ((dget?_isSome_iff l k).1 (by simp [h1])) h

theorem dget?_ddel_self (l : List (K × V)) (k : K)
    (h : (l.map Prod.fst).Nodup) : dget? (ddel l k) k = none := by
  induction l with
  | nil => simp [ddel, dget?]
  | cons p rest ih =>
      obtain ⟨k1, v1⟩ := p
      rw [List.map_cons, List.nodup_cons] at h
      by_cases h1 : k = k1
      · subst h1
        simpa [ddel] using dget?_eq_none_of_not_mem h.1
      · simp [ddel, dget?, h1]
        exact ih h.2

theorem keys_dset_subset (l : List (K × V)) (k k1 : K) (v : V)
    (h : k1 ∈ (dset l k v).map Prod.fst) :
    k1 = k ∨ k1 ∈ l.map Prod.fst := by
  rcases List.mem_map.1 h with ⟨p, hp, hk1⟩
  rcases mem_dset l k v hp with h2 | h2
  · left; rw [← hk1, h2]
  · right; exact hk1 ▸ List.mem_map_of_mem Prod.fst h2

theorem keys_dset_nodup (l : List (K × V)) (k : K) (v : V)
    (h : (l.map Prod.fst).Nodup) : ((dset l k v).map Prod.fst).Nodup := by
  induction l with
  | nil => simp [dset]
  | cons p rest ih =>
      obtain ⟨k1, v1⟩ := p
      rw [List.map_cons, List.nodup_cons] at h
      by_cases h1 : k = k1
      · subst h1
        rw [show dset ((k, v1) :: rest) k v = (k, v) :: rest from by simp [dset]]
        rw [List.map_cons, List.nodup_cons]
        exact ⟨h.1, h.2⟩
      · rw [show dset ((k1, v1) :: rest) k v = (k1, v1) :: dset rest k v from by
          simp [dset, h1]]
        rw [List.map_cons, List.nodup_cons]
        refine ⟨fun hmem => ?_, ih h.2⟩
        rcases keys_dset_subset rest k k1 v hmem with h2 | h2
        · exact h1 h2.symm
        · exact h.1 h2

theorem pairwise_snd_ne_dset (l : List (K × Nat)) (k : K) (n : Nat)
    (hlt : ∀ p ∈ l, p.2 < n)
    (hp : l.Pairwise (fun p q => p.2 ≠ q.2)) :
    (dset l k n).Pairwise (fun p q => p.2 ≠ q.2) := by
  induction l with
  | nil => simp [dset]
  | cons q rest ih =>
      obtain ⟨k1, v1⟩ := q
      rw [List.pairwise_cons] at hp
      by_cases h1 : k = k1
      · subst h1
        rw [show dset ((k, v1) :: rest) k n = (k, n) :: rest from by simp [dset]]
        rw [List.pairwise_cons]
        refine ⟨fun p hpmem heq => ?_, hp.2⟩
        have hplt := hlt p (List.mem_cons_of_mem _ hpmem)
        simp only at heq
        omega
      · rw [show dset ((k1, v1) :: rest) k n = (k1, v1) :: dset rest k n from by
          simp [dset, h1]]
        rw [List.pairwise_cons]
        constructor
        · intro p hpmem
          rcases mem_dset rest k n hpmem with h2 | h2
          · rw [h2]
            exact Nat.ne_of_lt (hlt (k1, v1) (List.mem_cons_self _ _))
          · exact hp.1 p h2
        · exact ih (fun p hmem => hlt p (List.mem_cons_of_mem _ hmem)) hp.2

/-- Invariant tying `data`, `_accesses` and `_access_count` together; it
holds for every cache built with a positive `maxcount` and touched only
through operations that do not raise. -/
structure Inv (c : LRU K V) : Prop where
  max_pos : 1 ≤ c.maxcount
  size_le : (c.data.length : Int) ≤ c.maxcount
  keys_eq : ∀ k : K, (dget? c.data k).isSome ↔ (dget? c.accesses k).isSome
  nd_data : (c.data.map Prod.fst).Nodup
  nd_acc : (c.accesses.map Prod.fst).Nodup
  acc_lt : ∀ p ∈ c.accesses, p.2 < c.access_count
  acc_distinct : c.accesses.Pairwise (fun p q => p.2 ≠ q.2)

theorem inv_mkCache {m : Int} (hm : 1 ≤ m) : Inv (mkCache m : LRU K V) := by
  refine ⟨hm, by simp [mkCache]; omega, by simp [mkCache, dget?],
    by simp [mkCache], by simp [mkCache], by simp [mkCache], by simp [mkCache]⟩

/-- The eviction scan, run with accumulator `(t, some k)`, returns an entry
of the list or the accumulator, whichever has the smallest sequence
number (the first such entry in case of ties). -/
theorem evictScan_go (l : List (K × Nat)) (t : Nat) (k : K) :
    ∃ (t1 : Nat) (k1 : K),
      evictScan l (t : Int) (some k) = ((t1 : Int), some k1) ∧
      ((t1 = t ∧ k1 = k) ∨ (k1, t1) ∈ l) ∧
      t1 ≤ t ∧ ∀ p ∈ l, t1 ≤ p.2 := by
  induction l generalizing t k with
  | nil => exact ⟨t, k, rfl, Or.inl ⟨rfl, rfl⟩, le_refl t, by simp⟩
  | cons q rest ih =>
      obtain ⟨key, value⟩ := q
      by_cases h : (t : Int) = -1 ∨ (t : Int) > (value : Int)
      · have hvt : value < t := by
          rcases h with h | h
          · omega
          · exact_mod_cast h
        obtain ⟨t1, k1, heq, horig, hle, hmin⟩ := ih value key
        refine ⟨t1, k1, ?_, ?_, le_trans hle (le_of_lt hvt), ?_⟩
        · rw [show evictScan ((key, value) :: rest) (t : Int) (some k)
              = evictScan rest (value : Int) (some key) from by
            simp only [evictScan]; rw [if_pos h]]
          exact heq
        · rcases horig with ⟨h1, h2⟩ | h1
          · subst h1; subst h2; exact Or.inr (List.mem_cons_self _ _)
          · exact Or.inr (List.mem_cons_of_mem _ h1)
        · intro p hp
          rcases List.mem_cons.1 hp with h2 | h2
          · rw [h2]; exact hle
          · exact hmin p h2
      · have hvt : t ≤ value := by
          push_neg at h
          exact_mod_cast h.2
        obtain ⟨t1, k1, heq, horig, hle, hmin⟩ := ih t k
        refine ⟨t1, k1, ?_, horig.imp id (List.mem_cons_of_mem _), hle, ?_⟩
        · rw [show evictScan ((key, value) :: rest) (t : Int) (some k)
              = evictScan rest (t : Int) (some k) from by
            simp only [evictScan]; rw [if_neg h]]
          exact heq
        · intro p hp
          rcases List.mem_cons.1 hp with h2 | h2
          · rw [h2]; exact le_trans hle hvt
          · exact hmin p h2

theorem evictScan_top (l : List (K × Nat)) (hne : l ≠ []) :
    ∃ (t1 : Nat) (k1 : K),
      (evictScan l (-1) none).2 = some k1 ∧ (k1, t1) ∈ l ∧
      ∀ p ∈ l, t1 ≤ p.2 := by
  match l with
  | (key, value) :: rest =>
      have hstep : evictScan ((key, value) :: rest) (-1) none
          = evictScan rest (value : Int) (some key) := by
        simp [evictScan]
      obtain ⟨t1, k1, heq, horig, hle, hmin⟩ := evictScan_go rest value key
      refine ⟨t1, k1, by rw [hstep, heq], ?_, ?_⟩
      · rcases horig with ⟨h1, h2⟩ | h1
        · subst h1; subst h2; exact List.mem_cons_self _ _
        · exact List.mem_cons_of_mem _ h1
      · intro p hp
        rcases List.mem_cons.1 hp with h2 | h2
        · rw [h2]; exact hle
        · exact hmin p h2

/-- Under the invariant, `_evict` removes exactly the entry with the
strictly smallest last-access sequence number, from both `data` and
`_accesses`, and raises nothing. -/
theorem evict_spec {c : LRU K V} (hInv : Inv c) (hne : c.accesses ≠ []) :
    ∃ (mk : K) (vm : Nat), (mk, vm) ∈ c.accesses ∧
      (dget? c.data mk).isSome ∧
      (∀ p ∈ c.accesses, p.1 ≠ mk → vm < p.2) ∧
      evict c =
        ({ c with data := ddel c.data mk, accesses := ddel c.accesses mk },
         true) := by
  obtain ⟨vm, mk, heq, hmem, hmin⟩ := evictScan_top c.accesses hne
  have hsome_acc : (dget? c.accesses mk).isSome :=
    (dget?_isSome_iff _ _).2 (List.mem_map_of_mem Prod.fst hmem)
  have hsome_data : (dget? c.data mk).isSome := (hInv.keys_eq mk).2 hsome_acc
  refine ⟨mk, vm, hmem, hsome_data, ?_, ?_⟩
  · intro p hp hne1
    have hpne : p ≠ (mk, vm) := fun habs => hne1 (by rw [habs])
    have hne2 : p.2 ≠ vm :=
      hInv.acc_distinct.forall (fun p q h => (h ∘ Eq.symm)) hp hmem hpne
    exact lt_of_le_of_ne (hmin p hp) (Ne.symm hne2)
  · unfold evict
    rw [heq]
    show delItem c mk = _
    unfold delItem
    rw [if_pos hsome_data, if_pos hsome_acc]

theorem inv_write {c : LRU K V} (hInv : Inv c) (k : K) (v : V)
    (hsize : ((dset c.data k v).length : Int) ≤ c.maxcount) :
    Inv { c with accesses := dset c.accesses k c.access_count,
                 access_count := c.access_count + 1,
                 data := dset c.data k v } := by
  constructor
  · exact hInv.max_pos
  · exact hsize
  · intro k1
    by_cases h : k1 = k
    · subst h
      simp [dget?_dset_self]
    · rw [dget?_dset_ne _ _ _ _ h, dget?_dset_ne _ _ _ _ h]
      exact hInv.keys_eq k1
  · exact keys_dset_nodup _ _ _ hInv.nd_data
  · exact keys_dset_nodup _ _ _ hInv.nd_acc
  · intro p hp
    rcases mem_dset _ _ _ hp with h | h
    · rw [h]
      exact Nat.lt_succ_self _
    · exact Nat.lt_succ_of_lt (hInv.acc_lt p h)
  · exact pairwise_snd_ne_dset _ _ _ hInv.acc_lt hInv.acc_distinct

theorem inv_ddel {c : LRU K V} (hInv : Inv c) (mk : K) :
    Inv { c with data := ddel c.data mk, accesses := ddel c.accesses mk } := by
  constructor
  · exact hInv.max_pos
  · show ((ddel c.data mk).length : Int) ≤ c.maxcount
    have h1 := (ddel_sublist c.data mk).length_le
    have h2 := hInv.size_le
    omega
  · intro k1
    show (dget? (ddel c.data mk) k1).isSome ↔
      (dget? (ddel c.accesses mk) k1).isSome
    by_cases h : k1 = mk
    · subst h
      rw [dget?_ddel_self _ _ hInv.nd_data, dget?_ddel_self _ _ hInv.nd_acc]
      exact Iff.rfl
    · rw [dget?_ddel_ne _ _ _ h, dget?_ddel_ne _ _ _ h]
      exact hInv.keys_eq k1
  · exact hInv.nd_data.sublist ((ddel_sublist _ _).map Prod.fst)
  · exact hInv.nd_acc.sublist ((ddel_sublist _ _).map Prod.fst)
  · exact fun p hp => hInv.acc_lt p ((ddel_sublist _ _).subset hp)
  · exact hInv.acc_distinct.sublist (ddel_sublist _ _)

/-- When the capacity test of `__setitem__` does not fire, no eviction
happens: the access is recorded and the value stored. -/
theorem setItem_no_evict {c : LRU K V} (k : K) (v : V)
    (hcond : ¬(((c.data.length : Int) = c.maxcount) ∧
      (dget? c.data k).isNone)) :
    setItem c k v = ({ c with
        access_count := c.access_count + 1,
        accesses := dset c.accesses k c.access_count,
        data := dset c.data k v }, true) := by
  unfold setItem
  rw [if_neg hcond]
  rfl

/-- Overwriting a key already present never evicts. -/
theorem setItem_overwrite {c : LRU K V} (k : K) (v : V)
    (hpres : (dget? c.data k).isSome) :
    setItem c k v = ({ c with
        access_count := c.access_count + 1,
        accesses := dset c.accesses k c.access_count,
        data := dset c.data k v }, true) := by
  refine setItem_no_evict k v ?_
  rintro ⟨-, h2⟩
  rw [Option.isNone_iff_eq_none] at h2
  rw [h2] at hpres
  simp at hpres

/-- Inserting a fresh key into a full cache under the invariant evicts
exactly the stored entry with the strictly smallest last-access sequence
number, then stores the new key; the entry count is back at `maxcount`
afterwards. -/
theorem setItem_evicts {c : LRU K V} (hInv : Inv c) {k : K} (v : V)
    (hfull : (c.data.length : Int) = c.maxcount)
    (habs : dget? c.data k = none) :
    ∃ (mk : K) (vm : Nat), (mk, vm) ∈ c.accesses ∧
      (dget? c.data mk).isSome ∧
      (∀ p ∈ c.accesses, p.1 ≠ mk → vm < p.2) ∧
      setItem c k v = ({ c with
          access_count := c.access_count + 1,
          accesses := dset (ddel c.accesses mk) k c.access_count,
          data := dset (ddel c.data mk) k v }, true) ∧
      ((dset (ddel c.data mk) k v).length : Int) = c.maxcount := by
  have hdata_ne : c.data ≠ [] := by
    intro h0
    rw [h0] at hfull
    simp at hfull
    have := hInv.max_pos
    omega
  have hacc_ne : c.accesses ≠ [] := by
    obtain ⟨p, hp⟩ := List.exists_mem_of_ne_nil c.data hdata_ne
    have hs : (dget? c.accesses p.1).isSome := (hInv.keys_eq p.1).1
      ((dget?_isSome_iff _ _).2 (List.mem_map_of_mem Prod.fst hp))
    intro h0
    rw [h0] at hs
    simp [dget?] at hs
  obtain ⟨mk, vm, hmem, hsome_data, hmin, hevict⟩ := evict_spec hInv hacc_ne
  have hkne : k ≠ mk := by
    intro h
    rw [← h, habs] at hsome_data
    simp at hsome_data
  have hcond : ((c.data.length : Int) = c.maxcount) ∧
      (dget? c.data k).isNone := by
    refine ⟨hfull, ?_⟩
    rw [habs]
    rfl
  refine ⟨mk, vm, hmem, hsome_data, hmin, ?_, ?_⟩
  · unfold setItem
    rw [if_pos hcond, hevict]
    rfl
  · have h1 : dget? (ddel c.data mk) k = none := by
      rw [dget?_ddel_ne _ _ _ hkne]
      exact habs
    rw [length_dset_absent _ _ _ h1]
    have h2 := length_ddel_present c.data mk hsome_data
    omega

theorem inv_setItem {c : LRU K V} (hInv : Inv c) (k : K) (v : V) :
    Inv (setItem c k v).1 ∧ (setItem c k v).2 = true := by
  by_cases hpres : (dget? c.data k).isSome
  · rw [setItem_overwrite k v hpres]
    refine ⟨inv_write hInv k v ?_, rfl⟩
    rw [length_dset_present _ _ _ hpres]
    exact hInv.size_le
  · have habs : dget? c.data k = none := by
      rcases h : dget? c.data k with _ | v1
      · rfl
      · rw [h] at hpres
        simp at hpres
    by_cases hfull : (c.data.length : Int) = c.maxcount
    · obtain ⟨mk, vm, hmem, hsd, hmin, heq, hlen⟩ := setItem_evicts hInv v hfull habs
      rw [heq]
      refine ⟨?_, rfl⟩
      exact inv_write (inv_ddel hInv mk) k v (le_of_eq hlen)
    · rw [setItem_no_evict k v (fun h => hfull h.1)]
      refine ⟨inv_write hInv k v ?_, rfl⟩
      rw [length_dset_absent _ _ _ habs]
      have := hInv.size_le
      omega

theorem inv_getItem {c : LRU K V} (hInv : Inv c) (k : K)
    (hk : (dget? c.data k).isSome) :
    Inv (getItem c k).1 ∧ ((getItem c k).2).isSome := by
  refine ⟨?_, hk⟩
  constructor
  · exact hInv.max_pos
  · exact hInv.size_le
  · intro k1
    show (dget? c.data k1).isSome ↔
      (dget? (dset c.accesses k c.access_count) k1).isSome
    by_cases h : k1 = k
    · subst h
      simp [dget?_dset_self, hk]
    · rw [dget?_dset_ne _ _ _ _ h]
      exact hInv.keys_eq k1
  · exact hInv.nd_data
  · exact keys_dset_nodup _ _ _ hInv.nd_acc
  · intro p hp
    rcases mem_dset _ _ _ hp with h | h
    · rw [h]
      exact Nat.lt_succ_self _
    · exact Nat.lt_succ_of_lt (hInv.acc_lt p h)
  · exact pairwise_snd_ne_dset _ _ _ hInv.acc_lt hInv.acc_distinct

theorem inv_delItem {c : LRU K V} (hInv : Inv c) (k : K)
    (hk : (dget? c.data k).isSome) :
    Inv (delItem c k).1 ∧ (delItem c k).2 = true := by
  have hacc : (dget? c.accesses k).isSome := (hInv.keys_eq k).1 hk
  unfold delItem
  rw [if_pos hk, if_pos hacc]
  exact ⟨inv_ddel hInv k, rfl⟩

theorem inv_validFrom {c c1 : LRU K V} {ops : List (Op K V)}
    (h : ValidFrom c ops c1) (hc : Inv c) : Inv c1 := by
  induction h with
  | nil _ => exact hc
  | set c2 k v h ih => exact ih ((inv_setItem hc k v).1)
  | get c2 k hk h ih => exact ih ((inv_getItem hc k hk).1)
  | del c2 k hk h ih => exact ih ((inv_delItem hc k hk).1)

theorem delItem_maxcount (c : LRU K V) (k : K) :
    (delItem c k).1.maxcount = c.maxcount := by
  unfold delItem
  split
  · split <;> rfl
  · rfl

theorem evict_maxcount (c : LRU K V) : (evict c).1.maxcount = c.maxcount := by
  unfold evict
  split
  · rfl
  · exact delItem_maxcount c _

theorem setItem_maxcount (c : LRU K V) (k : K) (v : V) :
    (setItem c k v).1.maxcount = c.maxcount := by
  by_cases hcond : ((c.data.length : Int) = c.maxcount) ∧
      (dget? c.data k).isNone
  · unfold setItem
    rw [if_pos hcond]
    rcases hev : evict c with ⟨cEv, flag⟩
    have hEv : cEv.maxcount = c.maxcount := by
      rw [← evict_maxcount c, hev]
    cases flag
    · exact hEv
    · exact hEv
  · rw [setItem_no_evict k v hcond]

theorem step_maxcount (c : LRU K V) (op : Op K V) :
    (step c op).1.maxcount = c.maxcount := by
  cases op with
  | set k v => exact setItem_maxcount c k v
  | get k => rfl
  | del k => exact delItem_maxcount c k

theorem validFrom_maxcount {c c1 : LRU K V} {ops : List (Op K V)}
    (h : ValidFrom c ops c1) : c1.maxcount = c.maxcount := by
  induction h with
  | nil _ => rfl
  | set c2 k v h ih => rw [ih, step_maxcount]
  | get c2 k hk h ih => rw [ih, step_maxcount]
  | del c2 k hk h ih => rw [ih, step_maxcount]

/-! ### Claims C1, C8, C9 -/

/-- C1, amended: for a `Cache` built with capacity `m ≥ 1` and any finite
sequence of set/get/delete operations in which every get and delete
targets a present key (so that no operation raises), the reached state
satisfies: the stored entry count is at most `m`; a set of an absent key
that finds exactly `m` stored entries succeeds and evicts exactly the
stored entry whose last-access sequence number is strictly smallest
before inserting the new key, leaving the count at `m`; and a set of a
present key overwrites in place, evicting nothing.  (The claim as
literally stated, over sequences that may also get absent keys, is
refuted by `C1_failed_get_breaks_eviction`.) -/
theorem C1_lru_capacity_and_eviction (m : Int) (hm : 1 ≤ m)
    (ops : List (Op K V)) (c1 : LRU K V)
    (h : ValidFrom (mkCache m) ops c1) :
    ((c1.data.length : Int) ≤ m) ∧
    (∀ k v, (c1.data.length : Int) = m → dget? c1.data k = none →
      ∃ (mk : K) (vm : Nat), (mk, vm) ∈ c1.accesses ∧
        (dget? c1.data mk).isSome ∧
        (∀ p ∈ c1.accesses, p.1 ≠ mk → vm < p.2) ∧
        setItem c1 k v = ({ c1 with
            access_count := c1.access_count + 1,
            accesses := dset (ddel c1.accesses mk) k c1.access_count,
            data := dset (ddel c1.data mk) k v }, true) ∧
        ((dset (ddel c1.data mk) k v).length : Int) = m) ∧
    (∀ k v, (dget? c1.data k).isSome →
      setItem c1 k v = ({ c1 with
          access_count := c1.access_count + 1,
          accesses := dset c1.accesses k c1.access_count,
          data := dset c1.data k v }, true)) := by
  have hmax : c1.maxcount = m := by
    rw [validFrom_maxcount h]
    rfl
  have hInv : Inv c1 := inv_validFrom h (inv_mkCache hm)
  refine ⟨by rw [← hmax]; exact hInv.size_le, ?_, ?_⟩
  · intro k v hfull habs
    obtain ⟨mk, vm, hmem, hsd, hmin, heq, hlen⟩ :=
      setItem_evicts hInv v (by rw [hmax]; exact hfull) habs
    exact ⟨mk, vm, hmem, hsd, hmin, heq, by rw [← hmax]; exact hlen⟩
  · intro k v hpres
    exact setItem_overwrite k v hpres

/-- Witness for `C1_lru_capacity_and_eviction`: the spec's own example run
(capacity 2, inserting keys 5, 6, 7 evicts 5) discharges the
hypotheses. -/
theorem C1_lru_capacity_and_eviction_witness :
    ((1 : Int) ≤ 2) ∧
    (((LRU.mk 2 3 [(6, 1), (7, 2)] [(6, 11), (7, 12)]
      : LRU Nat Nat).data.length : Int) ≤ 2) :=
  ⟨by norm_num,
    (C1_lru_capacity_and_eviction 2 (by norm_num)
      [.set 5 10, .set 6 11, .set 7 12] _
      (ValidFrom.set _ 5 10 (ValidFrom.set _ 6 11 (ValidFrom.set _ 7 12
        (ValidFrom.nil _))))).1⟩

/-- C1 as literally stated is false on the code: on a capacity-1 cache, a
get of the absent key 5 records a recency entry for it; after inserting
key 1, a set of the fresh key 2 finds the cache holding exactly 1 entry,
but instead of evicting the least-recently-used stored entry and
inserting key 2, it raises `KeyError` inside `_evict` (flag `false`):
nothing is evicted and key 2 is never inserted. -/
theorem C1_failed_get_breaks_eviction :
    (step (step ((step (mkCache 1 : LRU Nat Nat) (.get 5)).1)
        (.set 1 10)).1 (.set 2 20)).2 = false ∧
    (step (step ((step (mkCache 1 : LRU Nat Nat) (.get 5)).1)
        (.set 1 10)).1 (.set 2 20)).1.data = [(1, 10)] := by
  decide

/-- C8: evaluating `Cache.__getitem__` at the failing input. A get of the
absent key 5 on a fresh cache records `_accesses[5] = 0` and bumps
`_access_count` to 1 before raising `KeyError` (result `none`): the
cache's state is mutated and a recency bookkeeping entry is created for
the absent key, contrary to the claim that the state is left
unchanged. -/
theorem C8_get_absent_records_access :
    getItem (mkCache 32 : LRU Nat Nat) 5 =
      ((LRU.mk 32 1 [(5, 0)] [] : LRU Nat Nat), none) := by
  decide

/-- C9 as stated is false on the code: construction with capacity −1
succeeds with no error and no explicit disabled behaviour, two subsequent
inserts both succeed silently (flags `true`) and leave 2 stored entries —
the capacity bound is silently lost; and with capacity 0 the first insert
raises at first use (flag `false`, from `_evict` on an empty access
table), not at construction. -/
theorem C9_no_capacity_validation :
    ((mkCache (-1) : LRU Nat Nat) =
      { maxcount := -1, access_count := 0, accesses := [], data := [] }) ∧
    (step (mkCache (-1) : LRU Nat Nat) (.set 1 10)).2 = true ∧
    (step (step (mkCache (-1) : LRU Nat Nat) (.set 1 10)).1
      (.set 2 20)).2 = true ∧
    (step (step (mkCache (-1) : LRU Nat Nat) (.set 1 10)).1
      (.set 2 20)).1.data.length = 2 ∧
    setItem (mkCache 0 : LRU Nat Nat) 1 10 =
      ((mkCache 0 : LRU Nat Nat), false) := by
  decide

/-- C9, amended: the constructor accepts any capacity without validation.
With a negative capacity the test `len(self.data) == self._maxcount`
never fires, so every set succeeds without evicting and the entry count
grows past any bound; with capacity 0, a set of a new key on a fresh
cache fails at first use (inside `_evict`, nothing evicted, nothing
inserted) rather than at construction. -/
theorem C9_capacity_not_validated (m : Int) (c : LRU K V) (k : K) (v : V) :
    ((mkCache m : LRU K V) =
      { maxcount := m, access_count := 0, accesses := [], data := [] }) ∧
    (c.maxcount < 0 →
      setItem c k v = ({ c with
          access_count := c.access_count + 1,
          accesses := dset c.accesses k c.access_count,
          data := dset c.data k v }, true)) ∧
    (c.maxcount < 0 → dget? c.data k = none →
      (setItem c k v).1.data.length = c.data.length + 1) ∧
    (c.maxcount = 0 → c.data = [] → c.accesses = [] →
      setItem c k v = (c, false)) := by
  refine ⟨rfl, ?_, ?_, ?_⟩
  · intro hneg
    refine setItem_no_evict k v ?_
    rintro ⟨h1, -⟩
    omega
  · intro hneg habs
    rw [setItem_no_evict k v (by rintro ⟨h1, -⟩; omega)]
    show (dset c.data k v).length = c.data.length + 1
    exact length_dset_absent _ _ _ habs
  · intro h0 hdata hacc
    have hcond : ((c.data.length : Int) = c.maxcount) ∧
        (dget? c.data k).isNone := by
      rw [hdata, h0]
      exact ⟨rfl, rfl⟩
    have hev : evict c = (c, false) := by
      unfold evict
      rw [hacc]
      rfl
    unfold setItem
    rw [if_pos hcond, hev]
    rfl

/-- Witness for `C9_capacity_not_validated` at capacities −1 and 0. -/
theorem C9_capacity_not_validated_witness :
    ((mkCache (-1) : LRU Nat Nat).maxcount < 0) ∧
    (setItem (mkCache (-1) : LRU Nat Nat) 1 10).2 = true ∧
    setItem (mkCache 0 : LRU Nat Nat) 1 10 =
      ((mkCache 0 : LRU Nat Nat), false) := by
  refine ⟨by decide, ?_, ?_⟩
  · rw [(C9_capacity_not_validated (-1) (mkCache (-1) : LRU Nat Nat)
      1 10).2.1 (by decide)]
  · exact (C9_capacity_not_validated 0 (mkCache 0 : LRU Nat Nat)
      1 10).2.2.2 rfl rfl rfl

/-! ### Fetch orchestration (`tilemapbase/cache.py`, class `Cache`)

`Cache.fetch` consults the persistent store, applies the expiry test, and
on a miss delegates to the executor, storing a non-`None` result.  The
store (`ConcreteCache`/`SQLiteCache`) is modelled as a map from request
strings to `(data, create_time)` rows — `place_in_cache` performs
`INSERT OR REPLACE`, i.e. an upsert (`dset`).  Timestamps are `Int`
instants; `datetime.now()` is the parameter `now`.  The executor may
return an object, return `None`, or raise. -/

inductive ExecOutcome (D : Type) where
  | found (d : D)
  | failed
  | raised
deriving DecidableEq

inductive FetchOut (D : Type) where
  | ret (d : Option D)
  | exn
deriving DecidableEq

structure FetchCache (K D : Type) where
  expire_time : Option Int
  store : List (K × D × Int)
deriving DecidableEq

/-- Lines 93–96 of `cache.py`: if an expiry duration is set and a row was
found, a row older than the duration is treated as absent.  The boundary
`now - t = expire_time` is NOT stale (strict `>`). -/
def staleCheck (expire_time : Option Int) (now : Int)
    (cache0 : Option (D × Int)) : Option (D × Int) :=
  match expire_time, cache0 with
  | some et, some (d1, t1) => if now - t1 > et then none else some (d1, t1)
  | _, _ => cache0

/-- `Cache.fetch` (lines 89–104): the result is the returned object (or
`exn` when the executor raises), the updated cache state, and a flag
recording whether the executor was invoked. -/
def fetchStep (executor : K → ExecOutcome D) (now : Int)
    (c : FetchCache K D) (request : K) :
    FetchOut D × FetchCache K D × Bool :=
  match staleCheck c.expire_time now (dget? c.store request) with
  | none =>
      match executor request with
      | .found obj =>
          (.ret (some obj),
           { c with store := dset c.store request (obj, now) }, true)
      | .failed => (.ret none, c, true)
      | .raised => (.exn, c, true)
  | some (d1, _) => (.ret (some d1), c, false)

/-- C2: with a stored row `(request, d, t)`, a fetch is a hit — returning
`d`, leaving the store untouched and never invoking the executor — when
no expiry is set or `now - t ≤ expire_time` (including the exact
boundary); when `now - t > expire_time` the executor is invoked and a
non-`None` result overwrites the row with the new data and the new
timestamp. -/
theorem C2_fetch_expiry_semantics {D : Type} [DecidableEq D]
    (executor : K → ExecOutcome D) (now t : Int) (c : FetchCache K D)
    (request : K) (d : D)
    (hstore : dget? c.store request = some (d, t)) :
    ((c.expire_time = none ∨ ∃ et, c.expire_time = some et ∧ now - t ≤ et) →
      fetchStep executor now c request = (.ret (some d), c, false)) ∧
    (∀ et, c.expire_time = some et → now - t > et →
      (fetchStep executor now c request).2.2 = true ∧
      ∀ d1, executor request = .found d1 →
        fetchStep executor now c request =
          (.ret (some d1),
           { c with store := dset c.store request (d1, now) }, true)) := by
  constructor
  · intro hfresh
    have hsc : staleCheck c.expire_time now (dget? c.store request)
        = some (d, t) := by
      rw [hstore]
      rcases hfresh with h | ⟨et, h, hle⟩
      · rw [h]
        rfl
      · rw [h]
        show (if now - t > et then none else some (d, t)) = some (d, t)
        rw [if_neg (by omega)]
    unfold fetchStep
    rw [hsc]
  · intro et het hgt
    have hsc : staleCheck c.expire_time now (dget? c.store request)
        = none := by
      rw [hstore, het]
      show (if now - t > et then none else some (d, t)) = none
      rw [if_pos hgt]
    constructor
    · unfold fetchStep
      rw [hsc]
      cases hexec : executor request <;> rfl
    · intro d1 hd1
      unfold fetchStep
      rw [hsc, hd1]

/-- Witness for `C2_fetch_expiry_semantics`: store row `(1, 7, 10)`,
expiry 5.  At `now = 15` (exact boundary) the fetch is a hit without
invoking the executor; at `now = 16` the executor runs and the row is
overwritten with `(99, 16)`. -/
theorem C2_fetch_expiry_semantics_witness :
    (dget? [((1 : Nat), ((7 : Nat), (10 : Int)))] 1 = some (7, 10)) ∧
    fetchStep (fun _ => ExecOutcome.found 99) 15
        ⟨some 5, [(1, (7, 10))]⟩ 1 =
      (.ret (some 7), ⟨some 5, [(1, (7, 10))]⟩, false) ∧
    fetchStep (fun _ => ExecOutcome.found 99) 16
        ⟨some 5, [(1, (7, 10))]⟩ 1 =
      (.ret (some 99), ⟨some 5, [(1, (99, 16))]⟩, true) :=
  ⟨by decide,
   (C2_fetch_expiry_semantics (fun _ => ExecOutcome.found 99) 15 10
      ⟨some 5, [(1, (7, 10))]⟩ 1 7 (by decide)).1
     (Or.inr ⟨5, rfl, by decide⟩),
   ((C2_fetch_expiry_semantics (fun _ => ExecOutcome.found 99) 16 10
      ⟨some 5, [(1, (7, 10))]⟩ 1 7 (by decide)).2 5 rfl
     (by decide)).2 99 rfl⟩

theorem staleCheck_none_of_miss {D : Type} {expire : Option Int}
    {now : Int} {cache0 : Option (D × Int)}
    (hmiss : cache0 = none ∨
      ∃ et d t, expire = some et ∧ cache0 = some (d, t) ∧ now - t > et) :
    staleCheck expire now cache0 = none := by
  rcases hmiss with h | ⟨et, d, t, het, hsome, hgt⟩
  · rw [h]
    cases expire <;> rfl
  · rw [het, hsome]
    show (if now - t > et then none else some (d, t)) = none
    rw [if_pos hgt]

/-- C3: on a miss (row absent, or expiry set and the row stale), an
executor returning `None` makes `fetch` return `None` with the store
unchanged, and a raising executor propagates the exception with the store
unchanged; since nothing negative is recorded, every subsequent fetch of
the same key (any executor, any time not before `now`) invokes the
executor again. -/
theorem C3_failed_fetch_not_recorded {D : Type} [DecidableEq D]
    (executor executor2 : K → ExecOutcome D) (now now2 : Int)
    (c : FetchCache K D) (request : K)
    (hmiss : dget? c.store request = none ∨
      ∃ et d t, c.expire_time = some et ∧
        dget? c.store request = some (d, t) ∧ now - t > et) :
    (executor request = .failed →
      fetchStep executor now c request = (.ret none, c, true)) ∧
    (executor request = .raised →
      fetchStep executor now c request = (.exn, c, true)) ∧
    (now ≤ now2 → (fetchStep executor2 now2 c request).2.2 = true) := by
  have hnone : staleCheck c.expire_time now (dget? c.store request)
      = none := staleCheck_none_of_miss hmiss
  have hnone2 : ∀ n2, now ≤ n2 →
      staleCheck c.expire_time n2 (dget? c.store request) = none := by
    intro n2 hle
    refine staleCheck_none_of_miss ?_
    rcases hmiss with h | ⟨et, d, t, het, hsome, hgt⟩
    · exact Or.inl h
    · exact Or.inr ⟨et, d, t, het, hsome, by omega⟩
  refine ⟨?_, ?_, ?_⟩
  · intro hexec
    unfold fetchStep
    rw [hnone, hexec]
  · intro hexec
    unfold fetchStep
    rw [hnone, hexec]
  · intro hle
    unfold fetchStep
    rw [hnone2 now2 hle]
    cases hexec : executor2 request <;> rfl

/-- Witness for `C3_failed_fetch_not_recorded`: empty store (plain miss);
a `None`-returning executor, a raising executor, and a later fetch that
is invoked again. -/
theorem C3_failed_fetch_not_recorded_witness :
    (fetchStep (fun _ => (ExecOutcome.failed : ExecOutcome Nat)) 0
        ⟨none, []⟩ (1 : Nat) = (.ret none, ⟨none, []⟩, true)) ∧
    (fetchStep (fun _ => (ExecOutcome.raised : ExecOutcome Nat)) 0
        ⟨none, []⟩ (1 : Nat) = (.exn, ⟨none, []⟩, true)) ∧
    ((fetchStep (fun _ => ExecOutcome.found (5 : Nat)) 3
        ⟨none, []⟩ (1 : Nat)).2.2 = true) :=
  ⟨(C3_failed_fetch_not_recorded (fun _ => ExecOutcome.failed)
      (fun _ => ExecOutcome.found 5) 0 3 ⟨none, []⟩ 1 (Or.inl rfl)).1 rfl,
   (C3_failed_fetch_not_recorded (fun _ => ExecOutcome.raised)
      (fun _ => ExecOutcome.found 5) 0 3 ⟨none, []⟩ 1 (Or.inl rfl)).2.1 rfl,
   (C3_failed_fetch_not_recorded (fun _ => ExecOutcome.failed)
      (fun _ => ExecOutcome.found 5) 0 3 ⟨none, []⟩ 1 (Or.inl rfl)).2.2
     (by norm_num)⟩

/-! ### The compressing image cache (`tilemapbase/utils.py`, `ImageCache`)

A Pillow image is modelled by its observable components: mode string,
size, raw pixel bytes (`tobytes()`) and palette table (`getpalette()`,
768 byte values for a palette-mode image).  The stored representation is
either an image or a `_CompressedImage` record; `bz2.compress` /
`bz2.decompress` are external collaborators, passed in as an inverse pair
of functions on byte lists. -/

structure PILImage where
  mode : String
  size : Nat × Nat
  pix : List Nat
  palette : List Nat
deriving DecidableEq

inductive CacheVal where
  | image (i : PILImage)
  | compressed (mode : String) (size : Nat × Nat) (data : List Nat)
deriving DecidableEq

/-- `ImageCache.__setitem__`: an image value is replaced by a
`_CompressedImage` record holding its mode, size and the compressed bytes
(`tobytes()`, with `bytes(getpalette())` appended for mode "P"); any
other value (no `tobytes`) falls into `except: pass` and is stored
unmodified.  Delegates to `Cache.__setitem__`. -/
def imgSetItem (compress : List Nat → List Nat) (c : LRU K CacheVal)
    (k : K) (value : CacheVal) : LRU K CacheVal × Bool :=
  let value1 :=
    match value with
    | .image i =>
        .compressed i.mode i.size
          (compress (if i.mode = "P" then i.pix ++ i.palette else i.pix))
    | v => v
  setItem c k value1

/-- The decoding step of `ImageCache.__getitem__`: a `_CompressedImage`
record is decompressed and rebuilt via `Image.new`/`putpalette`/
`frombytes`; for mode "P" the palette is `data[-768:]` and the pixels
`data[:-768]` (a freshly built non-"P" image has an empty palette);
any other stored value is returned unchanged. -/
def decodeVal (decompress : List Nat → List Nat) :
    Option CacheVal → Option CacheVal
  | some (.compressed mode size data) =>
      let d := decompress data
      if mode = "P" then
        some (.image ⟨mode, size, d.take (d.length - 768),
          d.drop (d.length - 768)⟩)
      else
        some (.image ⟨mode, size, d, []⟩)
  | v => v

/-- `ImageCache.__getitem__`: delegates to `Cache.__getitem__`, then
decodes a compressed record. -/
def imgGetItem (decompress : List Nat → List Nat) (c : LRU K CacheVal)
    (k : K) : LRU K CacheVal × Option CacheVal :=
  ((getItem c k).1, decodeVal decompress (getItem c k).2)

theorem getItem_snd (c : LRU K V) (k : K) :
    (getItem c k).2 = dget? c.data k := rfl

theorem imgGetItem_snd (decompress : List Nat → List Nat)
    (c : LRU K CacheVal) (k : K) :
    (imgGetItem decompress c k).2
      = decodeVal decompress (dget? c.data k) := rfl

/-- A `__setitem__` call that completes without raising leaves the stored
value retrievable under its key. -/
theorem setItem_ok_stores {c : LRU K V} {k : K} {v : V}
    (h : (setItem c k v).2 = true) :
    dget? (setItem c k v).1.data k = some v := by
  by_cases hcond : ((c.data.length : Int) = c.maxcount) ∧
      (dget? c.data k).isNone
  · unfold setItem at h ⊢
    rw [if_pos hcond] at h ⊢
    rcases hev : evict c with ⟨cEv, flag⟩
    rw [hev] at h
    cases flag
    · simp at h
    · show dget? (dset cEv.data k v) k = some v
      exact dget?_dset_self _ _ _
  · rw [setItem_no_evict k v hcond]
    show dget? (dset c.data k v) k = some v
    exact dget?_dset_self _ _ _

theorem decode_encode_rgb (compress decompress : List Nat → List Nat)
    (hround : ∀ bs, decompress (compress bs) = bs)
    (mode : String) (hm : ¬ mode = "P") (size : Nat × Nat)
    (pix : List Nat) :
    decodeVal decompress (some (CacheVal.compressed mode size
      (compress pix))) = some (.image ⟨mode, size, pix, []⟩) := by
  show (if mode = "P" then
      some (CacheVal.image ⟨mode, size,
        (decompress (compress pix)).take
          ((decompress (compress pix)).length - 768),
        (decompress (compress pix)).drop
          ((decompress (compress pix)).length - 768)⟩)
    else some (CacheVal.image ⟨mode, size, decompress (compress pix), []⟩))
    = some (CacheVal.image ⟨mode, size, pix, []⟩)
  rw [if_neg hm, hround]

theorem decode_encode_pal (compress decompress : List Nat → List Nat)
    (hround : ∀ bs, decompress (compress bs) = bs) (size : Nat × Nat)
    (pix palette : List Nat) (hpal : palette.length = 768) :
    decodeVal decompress (some (CacheVal.compressed "P" size
      (compress (pix ++ palette))))
      = some (.image ⟨"P", size, pix, palette⟩) := by
  show (if ("P" : String) = "P" then
      some (CacheVal.image ⟨"P", size,
        (decompress (compress (pix ++ palette))).take
          ((decompress (compress (pix ++ palette))).length - 768),
        (decompress (compress (pix ++ palette))).drop
          ((decompress (compress (pix ++ palette))).length - 768)⟩)
    else some (CacheVal.image ⟨"P", size,
      decompress (compress (pix ++ palette)), []⟩))
    = some (CacheVal.image ⟨"P", size, pix, palette⟩)
  rw [if_pos rfl, hround]
  have hlen : (pix ++ palette).length - 768 = pix.length := by
    rw [List.length_append, hpal]
    omega
  rw [hlen, List.take_left, List.drop_left]

/-- C4: for an RGB-mode or palette-mode image value, a get of the key
right after a set that completed (so the key was not evicted in between)
returns an image with identical mode, size and raw pixel bytes, and for
palette mode an identical palette table, although the stored
representation is a compressed record — provided the byte compressor is
lossless and the palette table has the 768 entries Pillow reports for a
palette image. -/
theorem C4_image_roundtrip (compress decompress : List Nat → List Nat)
    (hround : ∀ bs, decompress (compress bs) = bs)
    (c : LRU K CacheVal) (k : K) (i : PILImage)
    (hmode : i.mode = "RGB" ∨ i.mode = "P")
    (hpal : i.mode = "P" → i.palette.length = 768)
    (hok : (imgSetItem compress c k (.image i)).2 = true) :
    ∃ i1 : PILImage,
      (imgGetItem decompress (imgSetItem compress c k (.image i)).1 k).2
        = some (.image i1) ∧
      i1.mode = i.mode ∧ i1.size = i.size ∧ i1.pix = i.pix ∧
      (i.mode = "P" → i1.palette = i.palette) := by
  have hbi : imgSetItem compress c k (.image i)
      = setItem c k (CacheVal.compressed i.mode i.size
          (compress (if i.mode = "P" then i.pix ++ i.palette
            else i.pix))) := rfl
  rcases hmode with hm | hm
  · have hmne : ¬ i.mode = "P" := by
      rw [hm]
      decide
    rw [if_neg hmne] at hbi
    refine ⟨⟨i.mode, i.size, i.pix, []⟩, ?_, rfl, rfl, rfl, ?_⟩
    · rw [hbi] at hok ⊢
      rw [imgGetItem_snd, setItem_ok_stores hok,
        decode_encode_rgb compress decompress hround i.mode hmne i.size
          i.pix]
    · intro hP
      exact absurd hP hmne
  · rw [if_pos hm] at hbi
    refine ⟨⟨i.mode, i.size, i.pix, i.palette⟩, ?_, rfl, rfl, rfl,
      fun _ => rfl⟩
    rw [hbi] at hok ⊢
    rw [imgGetItem_snd, setItem_ok_stores hok, hm]
    exact decode_encode_pal compress decompress hround i.size i.pix
      i.palette (hpal hm)

/-- Witness for `C4_image_roundtrip`: a 1×1 palette-mode image with pixel
byte 5 and a constant 768-entry palette, with the identity function as
the (lossless) compressor. -/
theorem C4_image_roundtrip_witness :
    ∃ i1 : PILImage,
      (imgGetItem id (imgSetItem id (mkCache 32 : LRU Nat CacheVal) 0
        (.image ⟨"P", (1, 1), [5], List.replicate 768 7⟩)).1 0).2
        = some (.image i1) ∧
      i1.mode = "P" ∧ i1.size = (1, 1) ∧ i1.pix = [5] ∧
      (("P" : String) = "P" → i1.palette = List.replicate 768 7) :=
  C4_image_roundtrip id id (fun _ => rfl) (mkCache 32) 0
    ⟨"P", (1, 1), [5], List.replicate 768 7⟩ (Or.inr rfl)
    (fun _ => by rw [List.length_replicate]) (by decide)

/-! ### Per-thread resource provider (`tilemapbase/utils.py`, `PerThreadProvider`)

The registry maps thread identities (`threading.get_ident()`) to resource
instances; `hasDesc` records whether `set_destructor` has installed a
callback.  A call to `get` is modelled atomically: the set of
currently-alive thread identities (`threading.enumerate()`) and the value
the factory would produce are parameters, and the resources on which the
housekeeping pass invokes the destructor are returned as a list.  The
calling thread is always among the live identities, since it is
running. -/

structure PTP (R : Type) where
  cache : List (Nat × R)
  hasDesc : Bool
deriving DecidableEq

structure GetResult (R : Type) where
  resource : R
  state : PTP R
  factoryRan : Bool
  destructed : List R
deriving DecidableEq

/-- `PerThreadProvider._clean`: every registry entry whose thread identity
is not among the live ones is removed; when a destructor is installed it
is invoked on each removed entry's resource. -/
def ptpClean {R : Type} (alive : List Nat) (s : PTP R) : PTP R × List R :=
  ({ cache := s.cache.filter (fun p => decide (p.1 ∈ alive)),
     hasDesc := s.hasDesc },
   if s.hasDesc then
     (s.cache.filter (fun p => decide (p.1 ∉ alive))).map Prod.snd
   else [])

/-- `PerThreadProvider.get` for calling thread `tid`: housekeeping first,
then return the cached instance, or invoke the factory (producing
`fresh`) and register the result. -/
def ptpGet {R : Type} (s : PTP R) (tid : Nat) (alive : List Nat)
    (fresh : R) : GetResult R :=
  match dget? (ptpClean alive s).1.cache tid with
  | some r => ⟨r, (ptpClean alive s).1, false, (ptpClean alive s).2⟩
  | none => ⟨fresh, { (ptpClean alive s).1 with
      cache := dset (ptpClean alive s).1.cache tid fresh }, true,
      (ptpClean alive s).2⟩

theorem dget?_filter_mem {R : Type} (l : List (Nat × R)) (alive : List Nat)
    (k : Nat) (hk : k ∈ alive) :
    dget? (l.filter (fun p => decide (p.1 ∈ alive))) k = dget? l k := by
  induction l with
  | nil => rfl
  | cons p rest ih =>
      obtain ⟨k1, v1⟩ := p
      by_cases h1 : k1 ∈ alive
      · rw [List.filter_cons_of_pos (by simpa using h1)]
        by_cases h2 : k = k1 <;> simp [dget?, h2, ih]
      · rw [List.filter_cons_of_neg (by simpa using h1)]
        have h2 : k ≠ k1 := fun h => h1 (h ▸ hk)
        simp [dget?, h2, ih]

theorem dget?_filter_not_mem {R : Type} (l : List (Nat × R))
    (alive : List Nat) (k : Nat) (hk : k ∉ alive) :
    dget? (l.filter (fun p => decide (p.1 ∈ alive))) k = none := by
  apply dget?_eq_none_of_not_mem
  intro hmem
  rcases List.mem_map.1 hmem with ⟨p, hp, hpk⟩
  rcases List.mem_filter.1 hp with ⟨hpl, hpa⟩
  exact hk (hpk ▸ (by simpa using hpa))

/-- After a `get`, the calling thread's registry entry holds exactly the
returned resource. -/
theorem ptpGet_lookup {R : Type} (s : PTP R) (tid : Nat)
    (alive : List Nat) (fresh : R) :
    dget? (ptpGet s tid alive fresh).state.cache tid
      = some (ptpGet s tid alive fresh).resource := by
  unfold ptpGet
  rcases h : dget? (ptpClean alive s).1.cache tid with _ | r
  · show dget? (dset (ptpClean alive s).1.cache tid fresh) tid = some fresh
    exact dget?_dset_self _ _ _
  · exact h

theorem ptpGet_nodup {R : Type} (s : PTP R) (tid : Nat)
    (alive : List Nat) (fresh : R)
    (hnd : (s.cache.map Prod.fst).Nodup) :
    ((ptpGet s tid alive fresh).state.cache.map Prod.fst).Nodup := by
  have hcl : (((ptpClean alive s).1.cache).map Prod.fst).Nodup :=
    hnd.sublist ((List.filter_sublist _).map Prod.fst)
  unfold ptpGet
  rcases h : dget? (ptpClean alive s).1.cache tid with _ | r
  · show ((dset (ptpClean alive s).1.cache tid fresh).map Prod.fst).Nodup
    exact keys_dset_nodup _ _ _ hcl
  · exact hcl

theorem ptpGet_destructed {R : Type} (s : PTP R) (tid : Nat)
    (alive : List Nat) (fresh : R) :
    (ptpGet s tid alive fresh).destructed = (ptpClean alive s).2 := by
  unfold ptpGet
  rcases h : dget? (ptpClean alive s).1.cache tid with _ | r <;> rfl

/-- A `get` from a thread whose entry is present returns that entry
without running the factory. -/
theorem ptpGet_again {R : Type} (c : PTP R) (tid : Nat)
    (alive2 : List Nat) (fresh2 r : R) (htid2 : tid ∈ alive2)
    (hr : dget? c.cache tid = some r) :
    (ptpGet c tid alive2 fresh2).resource = r ∧
    (ptpGet c tid alive2 fresh2).factoryRan = false := by
  have heq : dget? (ptpClean alive2 c).1.cache tid = some r := by
    show dget? (c.cache.filter (fun p => decide (p.1 ∈ alive2))) tid
      = some r
    rw [dget?_filter_mem _ _ _ htid2]
    exact hr
  unfold ptpGet
  rw [heq]
  exact ⟨rfl, rfl⟩

/-- C5: for a registry with unique thread keys and a live calling thread:
a second `get` from the same thread returns the resource of the first and
does not run the factory; the registry keys stay unique (at most one
resource per thread); and during any `get`, every entry of a dead thread
is removed — its key no longer resolves — with the destructor (when set)
invoked on its resource, while every entry of a live thread is kept
untouched. -/
theorem C5_per_thread_provider {R : Type} (s : PTP R) (tid : Nat)
    (alive alive2 : List Nat) (fresh fresh2 : R)
    (hnd : (s.cache.map Prod.fst).Nodup) (htid : tid ∈ alive)
    (htid2 : tid ∈ alive2) :
    ((ptpGet (ptpGet s tid alive fresh).state tid alive2 fresh2).resource
        = (ptpGet s tid alive fresh).resource ∧
      (ptpGet (ptpGet s tid alive fresh).state tid alive2
        fresh2).factoryRan = false) ∧
    (((ptpGet s tid alive fresh).state.cache.map Prod.fst).Nodup) ∧
    (∀ p ∈ s.cache,
      (p.1 ∈ alive → p ∈ (ptpGet s tid alive fresh).state.cache) ∧
      (p.1 ∉ alive →
        dget? (ptpGet s tid alive fresh).state.cache p.1 = none ∧
        (s.hasDesc = true →
          p.2 ∈ (ptpGet s tid alive fresh).destructed))) := by
  refine ⟨ptpGet_again _ tid alive2 fresh2 _ htid2
      (ptpGet_lookup s tid alive fresh),
    ptpGet_nodup s tid alive fresh hnd, ?_⟩
  intro p hp
  constructor
  · intro halive
    have hpf : p ∈ (ptpClean alive s).1.cache := by
      show p ∈ s.cache.filter (fun q => decide (q.1 ∈ alive))
      exact List.mem_filter.2 ⟨hp, by simpa using halive⟩
    unfold ptpGet
    rcases h : dget? (ptpClean alive s).1.cache tid with _ | r
    · show p ∈ dset (ptpClean alive s).1.cache tid fresh
      have hne : p.1 ≠ tid := by
        intro habs
        have hs2 : (dget? (ptpClean alive s).1.cache tid).isSome :=
          (dget?_isSome_iff _ _).2
            (habs ▸ List.mem_map_of_mem Prod.fst hpf)
        rw [h] at hs2
        simp at hs2
      exact mem_dset_of_mem_of_ne _ _ _ hpf hne
    · exact hpf
  · intro hdead
    have htne : p.1 ≠ tid := fun habs => hdead (habs ▸ htid)
    have hfnone : dget? (ptpClean alive s).1.cache p.1 = none := by
      show dget? (s.cache.filter (fun q => decide (q.1 ∈ alive))) p.1
        = none
      exact dget?_filter_not_mem _ _ _ hdead
    constructor
    · unfold ptpGet
      rcases h : dget? (ptpClean alive s).1.cache tid with _ | r
      · show dget? (dset (ptpClean alive s).1.cache tid fresh) p.1 = none
        rw [dget?_dset_ne _ _ _ _ htne]
        exact hfnone
      · exact hfnone
    · intro hdesc
      rw [ptpGet_destructed]
      show p.2 ∈ (if s.hasDesc then
        (s.cache.filter (fun q => decide (q.1 ∉ alive))).map Prod.snd
        else [])
      rw [hdesc]
      rw [if_pos rfl]
      exact List.mem_map_of_mem Prod.snd
        (List.mem_filter.2 ⟨hp, by simpa using hdead⟩)

/-- Witness for `C5_per_thread_provider`: registry holding resources 10
(thread 1) and 20 (thread 2), destructor set, thread 2 dead; thread 1
calls `get` twice. -/
theorem C5_per_thread_provider_witness :
    (([(1, 10), (2, 20)].map Prod.fst).Nodup ∧ (1 : Nat) ∈ [1]) ∧
    (ptpGet (ptpGet (⟨[(1, 10), (2, 20)], true⟩ : PTP Nat) 1 [1]
        30).state 1 [1] 40).resource
      = (ptpGet (⟨[(1, 10), (2, 20)], true⟩ : PTP Nat) 1 [1]
        30).resource :=
  ⟨⟨by decide, by decide⟩,
   (C5_per_thread_provider (⟨[(1, 10), (2, 20)], true⟩ : PTP Nat) 1 [1]
     [1] 30 40 (by decide) (by decide) (by decide)).1.1⟩

/-! ### Tile request keys (`tilemapbase/tiles.py`, class `Cache`)

`make_request_string` renders `"{}#{}#{}#{}".format(name, x, y, zoom)`
and `split_request_string` splits on `"#"` and parses the three
coordinates with `int(...)`.  Python strings are modelled as lists of
character codes: the delimiter `#` is code 35 and digit `d` is code
`48 + d`; tile coordinates and the zoom level are nonnegative
integers. -/

/-- Decimal digits of `n`, least significant first, with explicit fuel
(any fuel of at least `n` is sufficient since `n / 10 < n`). -/
def natDigitsAux : Nat → Nat → List Nat
  | 0, _ => []
  | _ + 1, 0 => []
  | fuel + 1, n + 1 => (n + 1) % 10 :: natDigitsAux fuel ((n + 1) / 10)

/-- `str(n)` for a nonnegative integer: its decimal character codes. -/
def natToChars (n : Nat) : List Nat :=
  if n = 0 then [48]
  else ((natDigitsAux n n).reverse).map (fun d => 48 + d)

/-- `int(s)`: `none` (ValueError) unless `s` is a nonempty all-digit
string, else its decimal value. -/
def charsToNat? (s : List Nat) : Option Nat :=
  if s ≠ [] ∧ s.all (fun c => decide (48 ≤ c ∧ c ≤ 57)) then
    some (s.foldl (fun a c => a * 10 + (c - 48)) 0)
  else none

/-- `str.split(sep)` for a one-character separator: `n` separator
occurrences yield `n + 1` (possibly empty) pieces. -/
def splitOnCode (sep : Nat) : List Nat → List (List Nat)
  | [] => [[]]
  | c :: rest =>
      if c = sep then [] :: splitOnCode sep rest
      else
        match splitOnCode sep rest with
        | [] => [[c]]
        | p :: ps => (c :: p) :: ps

/-- `Cache.make_request_string(name, x, y, zoom)`. -/
def make_request_string (name : List Nat) (x y zoom : Nat) : List Nat :=
  name ++ 35 :: (natToChars x ++ 35 :: (natToChars y ++ 35 ::
    natToChars zoom))

/-- `Cache.split_request_string`: unpacking `str.split("#")` into exactly
four parts (else ValueError, `none`) and parsing the coordinates. -/
def split_request_string (s : List Nat) :
    Option (List Nat × Nat × Nat × Nat) :=
  match splitOnCode 35 s with
  | [name, a, b, c] =>
      match charsToNat? a, charsToNat? b, charsToNat? c with
      | some x, some y, some z => some (name, x, y, z)
      | _, _, _ => none
  | _ => none

theorem splitOnCode_no_sep (sep : Nat) (l : List Nat) (h : sep ∉ l) :
    splitOnCode sep l = [l] := by
  induction l with
  | nil => rfl
  | cons c rest ih =>
      have hc : ¬ c = sep := fun habs =>
        h (by rw [← habs]; exact List.mem_cons_self c rest)
      have h2 : sep ∉ rest := fun habs => h (List.mem_cons_of_mem _ habs)
      unfold splitOnCode
      rw [if_neg hc, ih h2]

theorem splitOnCode_append (sep : Nat) (a rest : List Nat) (h : sep ∉ a) :
    splitOnCode sep (a ++ sep :: rest) = a :: splitOnCode sep rest := by
  induction a with
  | nil => simp [splitOnCode]
  | cons c atl ih =>
      have hc : ¬ c = sep := fun habs =>
        h (by rw [← habs]; exact List.mem_cons_self c atl)
      have h2 : sep ∉ atl := fun habs => h (List.mem_cons_of_mem _ habs)
      have hstep : splitOnCode sep ((c :: atl) ++ sep :: rest)
          = match splitOnCode sep (atl ++ sep :: rest) with
            | [] => [[c]]
            | p :: ps => (c :: p) :: ps := by
        show splitOnCode sep (c :: (atl ++ sep :: rest)) = _
        rw [splitOnCode]
        rw [if_neg hc]
      rw [hstep, ih h2]

theorem natDigitsAux_lt (fuel n : Nat) :
    ∀ d ∈ natDigitsAux fuel n, d < 10 := by
  induction fuel generalizing n with
  | zero => simp [natDigitsAux]
  | succ fuel ih =>
      cases n with
      | zero => simp [natDigitsAux]
      | succ m =>
          intro d hd
          rw [natDigitsAux] at hd
          rcases List.mem_cons.1 hd with h | h
          · rw [h]
            exact Nat.mod_lt _ (by norm_num)
          · exact ih _ d h

theorem natDigitsAux_ne_nil (n : Nat) (h : n ≠ 0) :
    natDigitsAux n n ≠ [] := by
  cases n with
  | zero => exact absurd rfl h
  | succ m => simp [natDigitsAux]

/-- Value of a little-endian digit list. -/
def valLE : List Nat → Nat
  | [] => 0
  | d :: ds => d + 10 * valLE ds

theorem valLE_natDigitsAux (fuel n : Nat) (h : n ≤ fuel) :
    valLE (natDigitsAux fuel n) = n := by
  induction fuel generalizing n with
  | zero =>
      have h0 : n = 0 := Nat.le_zero.1 h
      subst h0
      rfl
  | succ fuel ih =>
      cases n with
      | zero => rfl
      | succ m =>
          have hdiv : (m + 1) / 10 < m + 1 :=
            Nat.div_lt_self (Nat.succ_pos m) (by norm_num)
          rw [natDigitsAux, valLE, ih ((m + 1) / 10) (by omega)]
          omega

theorem foldl_reverse_digits (ds : List Nat) (acc : Nat) :
    List.foldl (fun a d => a * 10 + d) acc ds.reverse
      = acc * 10 ^ ds.length + valLE ds := by
  induction ds generalizing acc with
  | nil => simp [valLE]
  | cons d tl ih =>
      rw [List.reverse_cons, List.foldl_append, ih]
      show (acc * 10 ^ tl.length + valLE tl) * 10 + d
        = acc * 10 ^ (tl.length + 1) + valLE (d :: tl)
      rw [valLE, pow_succ]
      ring

theorem charsToNat?_natToChars (n : Nat) :
    charsToNat? (natToChars n) = some n := by
  by_cases h0 : n = 0
  · subst h0
    decide
  · unfold natToChars
    rw [if_neg h0]
    unfold charsToNat?
    have hcond : ((natDigitsAux n n).reverse.map (fun d => 48 + d)) ≠ []
        ∧ ((natDigitsAux n n).reverse.map (fun d => 48 + d)).all
            (fun c => decide (48 ≤ c ∧ c ≤ 57)) := by
      constructor
      · intro habs
        have h1 := congrArg List.length habs
        simp only [List.length_map, List.length_reverse,
          List.length_nil] at h1
        exact natDigitsAux_ne_nil n h0 (List.length_eq_zero.1 h1)
      · rw [List.all_eq_true]
        intro c hc
        rcases List.mem_map.1 hc with ⟨d, hd, hdc⟩
        have hd10 : d < 10 := natDigitsAux_lt n n d (List.mem_reverse.1 hd)
        rw [← hdc]
        simp only [decide_eq_true_eq]
        omega
    rw [if_pos hcond]
    congr 1
    rw [List.foldl_map]
    have hfun : (fun (a d : Nat) => a * 10 + (48 + d - 48))
        = fun (a d : Nat) => a * 10 + d := by
      funext a d
      omega
    rw [hfun, foldl_reverse_digits, valLE_natDigitsAux n n (le_refl n)]
    simp

theorem natToChars_no_delim (n : Nat) : (35 : Nat) ∉ natToChars n := by
  unfold natToChars
  by_cases h0 : n = 0
  · rw [if_pos h0]
    simp
  · rw [if_neg h0]
    intro habs
    rcases List.mem_map.1 habs with ⟨d, hd, hdc⟩
    omega

/-- C6: for any name not containing the delimiter `#` and any
nonnegative coordinates, decomposing a built key returns exactly the
original four components:
`split_request_string (make_request_string name x y zoom)
  = (name, x, y, zoom)`. -/
theorem C6_request_string_roundtrip (name : List Nat) (x y zoom : Nat)
    (hname : (35 : Nat) ∉ name) :
    split_request_string (make_request_string name x y zoom)
      = some (name, x, y, zoom) := by
  unfold make_request_string split_request_string
  rw [splitOnCode_append 35 name _ hname,
      splitOnCode_append 35 (natToChars x) _ (natToChars_no_delim x),
      splitOnCode_append 35 (natToChars y) _ (natToChars_no_delim y),
      splitOnCode_no_sep 35 (natToChars zoom) (natToChars_no_delim zoom)]
  show (match charsToNat? (natToChars x), charsToNat? (natToChars y),
      charsToNat? (natToChars zoom) with
    | some x1, some y1, some z1 => some (name, x1, y1, z1)
    | _, _, _ => none) = some (name, x, y, zoom)
  rw [charsToNat?_natToChars x, charsToNat?_natToChars y,
    charsToNat?_natToChars zoom]

/-- Witness for `C6_request_string_roundtrip`: the name "OSM" (codes
79, 83, 77) with coordinates (1, 2) at zoom 12. -/
theorem C6_request_string_roundtrip_witness :
    ((35 : Nat) ∉ [79, 83, 77]) ∧
    split_request_string (make_request_string [79, 83, 77] 1 2 12)
      = some ([79, 83, 77], 1, 2, 12) :=
  ⟨by decide, C6_request_string_roundtrip [79, 83, 77] 1 2 12 (by decide)⟩

/-! ### The store-existence probe (`tilemapbase/cache.py`, `database_exists`)

The probed filesystem location is modelled by what is at the path: no
file, a file that is not a valid SQLite database, or a database file with
its list of table names.  The primitives carry their real effects:
`os.stat` raises on a missing file; `sqlite3.connect` CREATES an empty
database file at a missing path (which is why the source calls `os.stat`
first); executing a query on a non-database file raises
`sqlite3.DatabaseError`. -/

inductive FileState where
  | absent
  | notADb
  | db (tables : List String)
deriving DecidableEq

/-- `os.stat(path)`: `false` means `FileNotFoundError` was raised. -/
def statOk : FileState → Bool
  | .absent => false
  | _ => true

/-- `sqlite3.connect(path)`: the filesystem state after connecting — a
missing path gets an empty database file (no tables) created. -/
def connectFs : FileState → FileState
  | .absent => .db []
  | f => f

/-- Executing `SELECT name FROM sqlite_master WHERE type='table'`: the
table names, or `none` when the file is not a valid database
(`sqlite3.DatabaseError` is raised). -/
def executeTables : FileState → Option (List String)
  | .db tables => some tables
  | _ => none

/-- `database_exists` (cache.py lines 107–124): `os.stat` runs inside the
outer `try` (missing file → outer `except` → `False`); then the
connection is opened; the inner `try` queries the table list (failure →
inner `except` → `False`, the `finally` closing the connection either
way); otherwise the result is whether a table named "cache" exists.
The pair returned is (result — `none` would mean an exception escaped to
the caller, filesystem state after the call). -/
def database_exists (fs : FileState) : Option Bool × FileState :=
  if statOk fs then
    match executeTables (connectFs fs) with
    | some tables => (some (tables.contains "cache"), connectFs fs)
    | none => (some false, connectFs fs)
  else
    (some false, fs)

/-- The probe's contract, written from the spec's words: `false` for a
missing file, `false` for a file that is not a readable database or
lacks the `cache` table, `true` exactly when a table named "cache"
exists. -/
def database_exists_spec : FileState → Bool
  | .absent => false
  | .notADb => false
  | .db tables => tables.contains "cache"

/-- C7: the probe never lets an exception escape, and it returns `false`
for a missing file, `false` for an unreadable non-database file, and
`true` exactly when the file is a database containing a table named
"cache" (any schema). -/
theorem C7_database_exists_total_correct (fs : FileState) :
    (database_exists fs).1 = some (database_exists_spec fs) := by
  cases fs <;> rfl

/-- C10: the probe is read-only on the filesystem: the state after the
call equals the state before it.  In particular a missing path gains no
empty database file, because `os.stat` raises (and the exception is
caught) before `sqlite3.connect` — the one primitive with a filesystem
side effect — can run. -/
theorem C10_database_exists_frame (fs : FileState) :
    (database_exists fs).2 = fs := by
  cases fs <;> rfl

end TileMapBase
